import Mathlib

/-!
# Verification of the CGEL tree-query layer, test matchers, and display pruning

Shallow embedding of the TypeScript sources of the `pimpale/cgel` repository:

* `tests/helpers.ts` — `parse`, `parseWordRef`, `findLeaves`, `findLCA`,
  `isAncestorInPath`, `checkConstituency`, `checkPartOfSpeech`;
* `tests/matchers.ts` — `parse` (wrapper with filters), `toBeGrammatical`,
  `toHaveConstituent`, `toHavePOS`;
* `playground/src/App.tsx` — `pruneTree`.

JavaScript strings are modelled as Lean `String`; `toLowerCase`, `split(':')`
and `parseInt(·, 10)` are embedded explicitly (ASCII case model, which covers
every string the repository manipulates).  A `TreeNode` has `children` that is
a terminal word (a JS string), an ordered list of child nodes (a JS array), or
JS `null`.  JS object identity on the nodes of one tree traversed from its
root is modelled by the node's position (path of child indices from the root)
paired with its label.
-/

namespace CGEL

/-- Embedding of JavaScript `String.prototype.toLowerCase` restricted to
ASCII (the only case mapping exercised by this repository): characters
`A`–`Z` are mapped to `a`–`z`, everything else is fixed.  `Char.toLower`
is exactly this map. -/
def jsToLower (s : String) : String := ⟨s.data.map Char.toLower⟩

/-- Worker for `jsSplit`: JavaScript `split` with a single-character
separator, accumulating the current field in reverse. -/
def splitChar (sep : Char) : List Char → List Char → List (List Char)
  | [], acc => [acc.reverse]
  | c :: cs, acc =>
    if c = sep then acc.reverse :: splitChar sep cs []
    else splitChar sep cs (c :: acc)

/-- Embedding of JavaScript `s.split(sep)` for a one-character separator. -/
def jsSplit (sep : Char) (s : String) : List String :=
  (splitChar sep s.data []).map fun cs => ⟨cs⟩

/-- The whitespace characters skipped by `parseInt` (ASCII model). -/
def isJsSpace (c : Char) : Bool :=
  c = ' ' || c = '\t' || c = '\n' || c = '\r'

/-- Decimal digit value of a character, if it is a digit. -/
def digitVal (c : Char) : Option Nat :=
  if '0' ≤ c ∧ c ≤ '9' then some (c.toNat - 48) else none

/-- Consume leading decimal digits, accumulating their value; `none` means
no digit was seen (JavaScript `NaN`). -/
def takeDigits : List Char → Option Nat → Option Nat
  | [], acc => acc
  | c :: cs, acc =>
    match digitVal c with
    | some d => takeDigits cs (some (acc.getD 0 * 10 + d))
    | none => acc

/-- Embedding of JavaScript `parseInt(s, 10)`: skip leading whitespace, read
an optional sign and then leading decimal digits; `none` models `NaN`. -/
def parseIntJS (s : String) : Option Int :=
  match s.data.dropWhile isJsSpace with
  | [] => none
  | c :: rest =>
    if c = '-' then (takeDigits rest none).map fun n => -(n : Int)
    else if c = '+' then (takeDigits rest none).map fun n => (n : Int)
    else (takeDigits (c :: rest) none).map fun n => (n : Int)

/-- The parser's tree node (`helpers.ts`):
`type TreeNode = { kind: string; children: TreeNode[] | string | null }`.
The three shapes of `children` become three constructors. -/
inductive TreeNode where
  | leaf (kind : String) (word : String)
  | node (kind : String) (cs : List TreeNode)
  | nullNode (kind : String)

/-- The `kind` field of a node. -/
def TreeNode.kind : TreeNode → String
  | .leaf k _ => k
  | .node k _ => k
  | .nullNode k => k

/-- A node of a given tree, as seen along a root-to-leaf path: its position
(child indices from the root) together with its `kind` label.  Two path
entries of the same tree are the same JS object iff they are equal. -/
abbrev Entry := List Nat × String

/-- A hit returned by `findLeaves`: the (lowercased) terminal word and the
root-to-leaf path of nodes, root first, leaf node last. -/
structure LeafHit where
  word : String
  path : List Entry
deriving DecidableEq, Repr

mutual
/-- Embedding of the `traverse` closure inside `findLeaves` (`helpers.ts`):
`currentPath = [...path, n]`; a string child yields a hit with the word
lowercased; an array child recurses into each child; `null` yields nothing. -/
def leavesNode : TreeNode → List Nat → List Entry → List LeafHit
  | .leaf k w, pos, path => [⟨jsToLower w, path ++ [(pos, k)]⟩]
  | .node k cs, pos, path => leavesList cs 0 pos (path ++ [(pos, k)])
  | .nullNode _, _, _ => []

/-- Traversal of a child array, tracking the next child index. -/
def leavesList : List TreeNode → Nat → List Nat → List Entry → List LeafHit
  | [], _, _, _ => []
  | c :: cs, i, pos, path => leavesNode c (pos ++ [i]) path ++ leavesList cs (i + 1) pos path
end

/-- Embedding of `findLeaves` (`helpers.ts`): all terminal words of the tree
with their root-to-leaf paths, in left-to-right order. -/
def findLeaves (t : TreeNode) : List LeafHit := leavesNode t [] []

/-- The `index` component of a parsed word reference: absent (`undefined`),
`NaN` (a `parseInt` failure), or a number. -/
inductive JSIndex where
  | undef
  | nan
  | num (k : Int)
deriving DecidableEq, Repr

/-- A parsed word reference (`helpers.ts`): a lowercased word and an
optional occurrence index. -/
structure WordRef where
  word : String
  index : JSIndex
deriving DecidableEq, Repr

/-- Embedding of `parseWordRef` (`helpers.ts`): split on `:`; with exactly
two parts the first is the (lowercased) word and the second is parsed as the
index, otherwise the whole reference is the word and the index is absent. -/
def parseWordRef (ref : String) : WordRef :=
  let parts := jsSplit ':' ref
  if parts.length = 2 then
    { word := jsToLower (parts.getD 0 "")
      index :=
        match parseIntJS (parts.getD 1 "") with
        | none => .nan
        | some k => .num k }
  else { word := jsToLower ref, index := .undef }

/-- The leaf filter used (inline, four times) by `checkConstituency` and
`checkPartOfSpeech`: leaf `l` at position `i` of `leaves` matches when its
word equals the reference word and either no index was given or the number
of occurrences of the word in `leaves.slice(0, i + 1)` minus one equals the
index (`NaN` compares unequal to everything). -/
def matchesRef (leaves : List LeafHit) (r : WordRef) (i : Nat) (l : LeafHit) : Bool :=
  l.word == r.word &&
    (match r.index with
     | .undef => true
     | .nan => false
     | .num k => (((leaves.take (i + 1)).countP fun x => x.word == r.word : Int) - 1 == k))

/-- All leaves of `leaves` matching a word reference, in order — the
`leaves.filter((l, i) => ...)` expression of `helpers.ts`. -/
def matchingLeaves (leaves : List LeafHit) (r : WordRef) : List LeafHit :=
  (leaves.enum.filter fun p => matchesRef leaves r p.1 p.2).map Prod.snd

/-- The `for` loop of `findLCA` after a successful first comparison: keep
descending while entries agree, remembering the last agreeing entry. -/
def lcaLoop (last : Entry) : List Entry → List Entry → Entry
  | a :: as, b :: bs => if a = b then lcaLoop a as bs else last
  | _, _ => last

/-- Embedding of `findLCA` (`helpers.ts`): walk both root-to-leaf paths in
lockstep from the root, returning the deepest common entry, or `none` when
even the first entries differ (the JS function returns `null` then). -/
def findLCA : List Entry → List Entry → Option Entry
  | a :: as, b :: bs => if a = b then some (lcaLoop a as bs) else none
  | _, _ => none

/-- Embedding of `isAncestorInPath` (`helpers.ts`): `path.includes(ancestor)`. -/
def isAncestorInPath (ancestor : Entry) (path : List Entry) : Bool :=
  path.contains ancestor

/-- Embedding of `checkConstituency` (`helpers.ts`): find the leaves matching
each of the three references; fail if any set is empty; otherwise succeed iff
some pair of word1/word2 leaves has a (non-null) lowest common ancestor under
which no matching excluded leaf lies. -/
def checkConstituency (tree : TreeNode) (word1Ref word2Ref excludesRef : String) : Bool :=
  let leaves := findLeaves tree
  let word1 := parseWordRef word1Ref
  let word2 := parseWordRef word2Ref
  let excludes := parseWordRef excludesRef
  let word1Leaves := matchingLeaves leaves word1
  let word2Leaves := matchingLeaves leaves word2
  let excludesLeaves := matchingLeaves leaves excludes
  if word1Leaves.isEmpty || word2Leaves.isEmpty || excludesLeaves.isEmpty then false
  else
    word1Leaves.any fun leaf1 =>
      word2Leaves.any fun leaf2 =>
        match findLCA leaf1.path leaf2.path with
        | none => false
        | some lca => excludesLeaves.all fun excludeLeaf => !isAncestorInPath lca excludeLeaf.path

/-- The per-leaf check of `checkPartOfSpeech`: the leaf node's own `kind`
equals the expected tag, or the path has at least two entries and the
second-to-last entry's `kind` (the immediate parent) equals it. -/
def posLeafCheck (expectedPOS : String) (l : LeafHit) : Bool :=
  (match l.path.getLast? with
   | none => false
   | some leafNode => leafNode.2 == expectedPOS) ||
  (2 ≤ l.path.length &&
    (match l.path.dropLast.getLast? with
     | none => false
     | some parent => parent.2 == expectedPOS))

/-- Embedding of `checkPartOfSpeech` (`helpers.ts`): some leaf matching the
word reference passes `posLeafCheck`. -/
def checkPartOfSpeech (tree : TreeNode) (wordRef expectedPOS : String) : Bool :=
  let leaves := findLeaves tree
  let r := parseWordRef wordRef
  (matchingLeaves leaves r).any (posLeafCheck expectedPOS)

/-! ## The test matchers (`tests/matchers.ts`) -/

/-- `ParseResult` of `matchers.ts`: the sentence, the returned trees, and an
optional error message (set only when the underlying parse threw). -/
structure ParseResult where
  sentence : String
  trees : List TreeNode
  error : Option String

/-- A filter passed to `matchers.parse`: a `ConstituentTest` or a `HasPOSTest`. -/
inductive Filter where
  | constituent (w1 w2 out : String)
  | hasPOS (word pos : String)

/-- Dispatch of one filter on one tree, as in the `filters.every` callback. -/
def matchesFilter (t : TreeNode) : Filter → Bool
  | .constituent w1 w2 out => checkConstituency t w1 w2 out
  | .hasPOS w p => checkPartOfSpeech t w p

/-- Embedding of `parse` from `matchers.ts`.  The underlying parser
(`parseInternal`, which feeds a fresh nearley parser and may throw) is passed
as a function into `Except`: `ok` is a normal return, `error` an exception.
On success the trees are filtered to those matching all filters; a thrown
exception is caught and becomes `trees = []` with `error` set. -/
def parseMatchers (runParse : String → Except String (List TreeNode))
    (sentence : String) (filters : List Filter) : ParseResult :=
  match runParse sentence with
  | .ok trees =>
    { sentence := sentence
      trees := trees.filter fun t => filters.all (matchesFilter t)
      error := none }
  | .error msg => { sentence := sentence, trees := [], error := some msg }

/-- Everything a caller (and the recorded `task.meta` consumed by the
playground) can observe from one `toBeGrammatical` evaluation. -/
structure GrammaticalOutcome where
  pass : Bool
  message : String
  actualCount : Nat
  metaSentence : String
  metaParseCount : Nat
  metaError : Option String
  metaAssertionPassed : Bool
deriving DecidableEq, Repr

/-- Embedding of the `toBeGrammatical` matcher (`matchers.ts`), including the
`recordAssertion` side effect on `task.meta`: `pass` is `trees.length > 0`;
`meta.error` is set only under `recordAssertion`'s `if (error)` guard, a JS
truthiness test that is false both for an absent error and for the empty
string. -/
def toBeGrammatical (received : ParseResult) : GrammaticalOutcome :=
  let pass := decide (0 < received.trees.length)
  { pass := pass
    message :=
      if pass then
        "Expected \"" ++ received.sentence ++ "\" not to parse, but got " ++
          toString received.trees.length ++ " parse(s)"
      else "Expected \"" ++ received.sentence ++ "\" to parse, but it didn't"
    actualCount := received.trees.length
    metaSentence := received.sentence
    metaParseCount := received.trees.length
    metaError :=
      match received.error with
      | none => none
      | some msg => if msg = "" then none else some msg
    metaAssertionPassed := pass }

/-- The `pass` value of the `toHaveConstituent` matcher (`matchers.ts`):
`false` outright on zero trees, otherwise `trees.some(...)`. -/
def toHaveConstituentPass (received : ParseResult) (w1 w2 excludes : String) : Bool :=
  if received.trees.isEmpty then false
  else received.trees.any fun tree => checkConstituency tree w1 w2 excludes

/-- The `pass` value of the `toHavePOS` matcher (`matchers.ts`). -/
def toHavePOSPass (received : ParseResult) (word pos : String) : Bool :=
  if received.trees.isEmpty then false
  else received.trees.any fun tree => checkPartOfSpeech tree word pos

/-! ## The playground renderer's pruning (`playground/src/App.tsx`) -/

mutual
/-- Embedding of `pruneTree` (`App.tsx`): a string child is kept as is; a
`null` child becomes a `<null>` leaf when `showNulls` and is dropped
otherwise; an array child is pruned recursively, and a node all of whose
children pruned away becomes an `<empty list>` leaf when `showNulls` and is
dropped otherwise. -/
def pruneTree : TreeNode → Bool → Option TreeNode
  | .leaf k w, _ => some (.leaf k w)
  | .nullNode k, showNulls =>
    if showNulls then some (.leaf k "<null>") else none
  | .node k cs, showNulls =>
    match pruneList cs showNulls with
    | [] => if showNulls then some (.leaf k "<empty list>") else none
    | c :: cs' => some (.node k (c :: cs'))

/-- The `children.map(...).filter(child => child !== null)` step. -/
def pruneList : List TreeNode → Bool → List TreeNode
  | [], _ => []
  | c :: cs, showNulls =>
    match pruneTree c showNulls with
    | none => pruneList cs showNulls
    | some c' => c' :: pruneList cs showNulls
end

mutual
/-- The terminal words of a tree, left to right, in their original case. -/
def treeWordsN : TreeNode → List String
  | .leaf _ w => [w]
  | .node _ cs => treeWordsL cs
  | .nullNode _ => []

/-- Terminal words of a child array. -/
def treeWordsL : List TreeNode → List String
  | [] => []
  | c :: cs => treeWordsN c ++ treeWordsL cs
end

mutual
/-- `true` iff every subtree of the tree (including the tree itself) has a
terminal-word descendant: no `null` children and no word-free nodes remain. -/
def everySubtreeHasWordN : TreeNode → Bool
  | .leaf _ _ => true
  | .node _ cs => !cs.isEmpty && everySubtreeHasWordL cs
  | .nullNode _ => false

/-- `everySubtreeHasWordN` over a child array. -/
def everySubtreeHasWordL : List TreeNode → Bool
  | [] => true
  | c :: cs => everySubtreeHasWordN c && everySubtreeHasWordL cs
end

/-! ## Case variance -/

/-- Two strings differ only in (ASCII) letter case. -/
def strCaseEq (s t : String) : Prop :=
  s.data.map Char.toLower = t.data.map Char.toLower

instance (s t : String) : Decidable (strCaseEq s t) := by
  unfold strCaseEq; infer_instance

mutual
/-- Two trees are identical except that terminal words may differ in letter
case (kinds and shape are equal). -/
def caseVariantN : TreeNode → TreeNode → Bool
  | .leaf k w, .leaf k' w' => k == k' && jsToLower w == jsToLower w'
  | .node k cs, .node k' cs' => k == k' && caseVariantL cs cs'
  | .nullNode k, .nullNode k' => k == k'
  | _, _ => false

/-- `caseVariantN` over child arrays, in lockstep. -/
def caseVariantL : List TreeNode → List TreeNode → Bool
  | [], [] => true
  | c :: cs, c' :: cs' => caseVariantN c c' && caseVariantL cs cs'
  | _, _ => false
end

/-! ## The parse pipeline (`helpers.ts` `parse` on top of the lexer and the
nearley engine) -/

/-- Modelled from the spec: the english lexer (`src/englishLexer.ts`) and the
nearley chart-parse engine driven by the compiled grammar artifact
(`englishGrammar.js`) are not among the provided sources — only their caller
`parse` in `helpers.ts` is.  Per spec §4.2 the lexer is a pure function of the
input text and the immutable lexicon artifact, per §4.4 the engine is a
chart parser over the immutable rule set, and per §5 "each parse request
(Lexer + Parse Engine invocation) is a pure function of its input text and
the shared immutable artifacts".  We therefore model the two artifacts as
fixed functions bundled in a `ParseEngine`. -/
structure ParseEngine where
  lexFn : String → List String
  runFn : List String → List TreeNode

/-- A nearley `Parser` instance: the tokens fed so far and the current
results, recomputed deterministically from the fed tokens by the engine. -/
structure ParserInstance where
  fed : List String
  results : List TreeNode

/-- The process heap of parser instances created so far; the compiled
grammar and lexicon artifacts are immutable and live in the `ParseEngine`. -/
structure ProcState where
  instances : List ParserInstance

/-- `new nearley.Parser(nearley.Grammar.fromCompiled(grammar))`: allocate a
fresh instance whose state depends only on the compiled grammar, never on
previously allocated instances. -/
def newParser (w : ProcState) : ParserInstance × ProcState :=
  (⟨[], []⟩, ⟨w.instances ++ [⟨[], []⟩]⟩)

/-- `parser.feed(tokens)`: extend the fed stream and recompute results. -/
def feedTokens (e : ParseEngine) (p : ParserInstance) (ts : List String) : ParserInstance :=
  { fed := p.fed ++ ts, results := e.runFn (p.fed ++ ts) }

/-- Embedding of `parse` (`helpers.ts`) as a call against the process state:
make a fresh parser, feed `lex(sentence)`, return `parser.results`, with the
heap recording the instance it used. -/
def parseCall (e : ParseEngine) (w : ProcState) (sentence : String) :
    List TreeNode × ProcState :=
  let pw := newParser w
  let p' := feedTokens e pw.1 (e.lexFn sentence)
  (p'.results, ⟨pw.2.instances ++ [p']⟩)

/-! ## Structure of the paths produced by `findLeaves` -/

/-- The `kind` of the node reached from `t` by following a list of child
indices (`""` if the position does not exist). -/
def kindAtD : TreeNode → List Nat → String
  | t, [] => t.kind
  | .node _ cs, i :: rest =>
    match cs.get? i with
    | some c => kindAtD c rest
    | none => ""
  | .leaf _ _, _ :: _ => ""
  | .nullNode _, _ :: _ => ""

/-- The position (child-index path from the root) of the leaf of a hit: the
position stored in the last entry of its root-to-leaf path. -/
def leafPos (l : LeafHit) : List Nat := (l.path.getLastD ([], "")).1

/-- Reference implementation of the occurrence-indexed selection: walk the
list keeping a countdown `k` of matches still to skip; emit the element on
which the countdown hits zero. -/
def selectOcc {α : Type} (p : α → Bool) : Int → List α → List α
  | _, [] => []
  | k, x :: xs =>
    (if p x && (k == 0) then [x] else []) ++ selectOcc p (if p x then k - 1 else k) xs

/-- The pointwise same-lowercase relation on character lists. -/
abbrev chEq (c d : Char) : Prop := c.toLower = d.toLower

/-! ## Concrete example trees used by the witnesses -/

/-- A small derivation tree for "The dog ran". -/
def exTree : TreeNode :=
  .node "Clause" [.node "NP" [.leaf "D" "The", .leaf "N" "dog"], .leaf "V" "ran"]

/-- `exTree` with its terminal words changed only in letter case. -/
def exTreeCase : TreeNode :=
  .node "Clause" [.node "NP" [.leaf "D" "tHE", .leaf "N" "DOG"], .leaf "V" "Ran"]

/-- A tree with a `null`-children node, as the parser produces for omitted
optional constituents. -/
def exTreeNull : TreeNode :=
  .node "Clause" [.nullNode "NP", .leaf "V" "ran"]


theorem leavesNode_path_spec :
    ∀ (n : TreeNode) (pos : List Nat) (path : List Entry),
      ∀ l ∈ leavesNode n pos path,
        ∃ rel : List Nat,
          l.path = path ++ (rel.inits.map fun p => (pos ++ p, kindAtD n p)) := by
  refine leavesNode.induct
    (fun n pos path =>
      ∀ l ∈ leavesNode n pos path,
        ∃ rel : List Nat,
          l.path = path ++ (rel.inits.map fun p => (pos ++ p, kindAtD n p)))
    (fun cs i pos path =>
      ∀ l ∈ leavesList cs i pos path,
        ∃ (j : Nat) (c : TreeNode) (rel : List Nat),
          cs.get? j = some c ∧
          l.path = path ++ (rel.inits.map fun p => (pos ++ [i + j] ++ p, kindAtD c p)))
    ?_ ?_ ?_ ?_ ?_
  · intro k w pos path l hl
    simp only [leavesNode, List.mem_singleton] at hl
    refine ⟨[], ?_⟩
    subst hl
    simp [kindAtD, TreeNode.kind]
  · intro k cs pos path ih l hl
    simp only [leavesNode] at hl
    obtain ⟨j, c, rel, hjc, hpath⟩ := ih l hl
    have hjc' : cs[j]? = some c := by
      rw [← List.get?_eq_getElem?]; exact hjc
    refine ⟨j :: rel, ?_⟩
    rw [hpath, List.inits_cons, List.map_cons, List.map_map]
    have h1 : ((pos ++ [], kindAtD (TreeNode.node k cs) []) : Entry) = (pos, k) := by
      simp [kindAtD, TreeNode.kind]
    have h2 :
        List.map ((fun p => (pos ++ p, kindAtD (TreeNode.node k cs) p)) ∘ fun t => j :: t)
            rel.inits
          = List.map (fun p => (pos ++ [0 + j] ++ p, kindAtD c p)) rel.inits := by
      refine List.map_congr_left ?_
      intro p _
      simp only [Function.comp_apply]
      have hk : kindAtD (TreeNode.node k cs) (j :: p) = kindAtD c p := by
        simp [kindAtD, hjc']
      rw [hk]
      have hp : pos ++ j :: p = pos ++ [0 + j] ++ p := by
        rw [show 0 + j = j from by omega]
        simp
      rw [hp]
    rw [h1, h2]
    simp [List.append_assoc]
  · intro k pos path l hl
    simp [leavesNode] at hl
  · intro i pos path l hl
    simp [leavesList] at hl
  · intro c cs i pos path ih1 ih2 l hl
    simp only [leavesList, List.mem_append] at hl
    rcases hl with hl | hl
    · obtain ⟨rel, hpath⟩ := ih1 l hl
      refine ⟨0, c, rel, rfl, ?_⟩
      rw [hpath]
      simp [List.append_assoc]
    · obtain ⟨j, c', rel, hjc, hpath⟩ := ih2 l hl
      refine ⟨j + 1, c', rel, by simpa using hjc, ?_⟩
      rw [hpath]
      simp only [show i + (j + 1) = i + 1 + j from by omega]

theorem inits_getLast? (l : List ℕ) : l.inits.getLast? = some l := by
  rw [List.getLast?_eq_getElem?, List.length_inits]
  simp only [Nat.add_sub_cancel]
  rw [List.getElem?_eq_getElem (by rw [List.length_inits]; omega)]
  rw [List.getElem_inits]
  simp

/-- Every hit of `findLeaves` has as its path exactly the chain of ancestors
of its leaf: the entries are the initial segments of the leaf's position,
root first, each paired with the `kind` of the node at that position. -/
theorem findLeaves_path {t : TreeNode} {l : LeafHit} (hl : l ∈ findLeaves t) :
    l.path = (leafPos l).inits.map fun p => (p, kindAtD t p) := by
  obtain ⟨rel, hpath⟩ := leavesNode_path_spec t [] [] l hl
  simp only [List.nil_append] at hpath
  have hlp : leafPos l = rel := by
    unfold leafPos
    rw [hpath, List.getLastD_eq_getLast?, List.getLast?_map, inits_getLast?]
    rfl
  rw [hlp, hpath]

/-- Membership in a leaf hit's path is exactly the ancestor relation on
positions: an entry lies on the path iff its position is a prefix of the
leaf's position and its label is the tree's label there. -/
theorem mem_path_iff {t : TreeNode} {l : LeafHit} (hl : l ∈ findLeaves t) (ent : Entry) :
    ent ∈ l.path ↔ ent.1 <+: leafPos l ∧ ent.2 = kindAtD t ent.1 := by
  rw [findLeaves_path hl, List.mem_map]
  constructor
  · rintro ⟨p, hp, rfl⟩
    exact ⟨(List.mem_inits _ _).1 hp, rfl⟩
  · rintro ⟨hpre, hkind⟩
    exact ⟨ent.1, (List.mem_inits _ _).2 hpre, by rw [← hkind]⟩

/-- The path of every leaf hit starts at the root entry `([] , t.kind)`. -/
theorem findLeaves_path_head {t : TreeNode} {l : LeafHit} (hl : l ∈ findLeaves t) :
    ∃ tail, l.path = ([], t.kind) :: tail := by
  rw [findLeaves_path hl]
  cases h : leafPos l with
  | nil => exact ⟨[], by simp [List.inits, kindAtD]⟩
  | cons a rest =>
    refine ⟨(rest.inits.map fun p => a :: p).map fun p => (p, kindAtD t p), ?_⟩
    rw [List.inits_cons]
    simp [kindAtD]

theorem lcaLoop_mem (last : Entry) (as bs : List Entry) :
    lcaLoop last as bs = last ∨ lcaLoop last as bs ∈ as := by
  induction as generalizing last bs with
  | nil => simp [lcaLoop]
  | cons a as ih =>
    cases bs with
    | nil => simp [lcaLoop]
    | cons b bs =>
      simp only [lcaLoop]
      split
      · rcases ih a bs with h | h
        · right; rw [h]; exact List.mem_cons_self _ _
        · right; exact List.mem_cons_of_mem _ h
      · left; rfl

/-- The entry returned by `findLCA` lies on the first path. -/
theorem findLCA_mem {p q : List Entry} {x : Entry} (h : findLCA p q = some x) : x ∈ p := by
  cases p with
  | nil => simp [findLCA] at h
  | cons a as =>
    cases q with
    | nil => simp [findLCA] at h
    | cons b bs =>
      simp only [findLCA] at h
      split at h
      · cases h
        rcases lcaLoop_mem a as bs with h' | h'
        · rw [h']; exact List.mem_cons_self _ _
        · exact List.mem_cons_of_mem _ h'
      · cases h

/-- Every leaf selected by the matching filter is a leaf of the list. -/
theorem matchingLeaves_subset {leaves : List LeafHit} {r : WordRef} {l : LeafHit}
    (h : l ∈ matchingLeaves leaves r) : l ∈ leaves := by
  unfold matchingLeaves at h
  rw [List.mem_map] at h
  obtain ⟨⟨i, x⟩, hmem, rfl⟩ := h
  rw [List.mem_filter] at hmem
  obtain ⟨hi, hlt⟩ := List.mem_enum hmem.1
  exact hlt ▸ List.getElem_mem _

/-- `findLCA` never returns `none` on two leaf paths of one tree: both paths
start at the shared root entry. -/
theorem findLCA_of_leaves {t : TreeNode} {l1 l2 : LeafHit}
    (h1 : l1 ∈ findLeaves t) (h2 : l2 ∈ findLeaves t) :
    ∃ lca, findLCA l1.path l2.path = some lca := by
  obtain ⟨tl1, e1⟩ := findLeaves_path_head h1
  obtain ⟨tl2, e2⟩ := findLeaves_path_head h2
  rw [e1, e2]
  simp [findLCA]

/-- The full behaviour of `checkConstituency`: it returns `true` iff the
excluded reference matches some leaf and some pair of leaves matching the two
words has a lowest common ancestor none of whose leaf descendants (leaves
whose position the ancestor's position prefixes) is a matching occurrence of
the excluded word.  In particular it is `false` whenever any of the three
references matches no leaf. -/
theorem checkConstituency_iff (t : TreeNode) (r1 r2 re : String) :
    checkConstituency t r1 r2 re = true ↔
      (matchingLeaves (findLeaves t) (parseWordRef re) ≠ [] ∧
       ∃ a ∈ matchingLeaves (findLeaves t) (parseWordRef r1),
       ∃ b ∈ matchingLeaves (findLeaves t) (parseWordRef r2),
       ∃ lca, findLCA a.path b.path = some lca ∧
         ∀ e ∈ matchingLeaves (findLeaves t) (parseWordRef re),
           ¬ lca.1 <+: leafPos e) := by
  simp only [checkConstituency]
  by_cases hg : ((matchingLeaves (findLeaves t) (parseWordRef r1)).isEmpty ||
      (matchingLeaves (findLeaves t) (parseWordRef r2)).isEmpty ||
      (matchingLeaves (findLeaves t) (parseWordRef re)).isEmpty) = true
  · rw [if_pos hg]
    simp only [Bool.or_eq_true, List.isEmpty_iff] at hg
    constructor
    · intro h; simp at h
    · rintro ⟨hne, a, ha, b, hb, _⟩
      rcases hg with (h1 | h2) | h3
      · rw [h1] at ha; exact absurd ha (List.not_mem_nil a)
      · rw [h2] at hb; exact absurd hb (List.not_mem_nil b)
      · exact absurd h3 hne
  · rw [if_neg hg]
    simp only [Bool.or_eq_true, List.isEmpty_iff, not_or] at hg
    obtain ⟨⟨h1, h2⟩, h3⟩ := hg
    simp only [List.any_eq_true]
    constructor
    · rintro ⟨a, ha, b, hb, hmatch⟩
      refine ⟨h3, a, ha, b, hb, ?_⟩
      cases hlca : findLCA a.path b.path with
      | none => rw [hlca] at hmatch; cases hmatch
      | some lca =>
        rw [hlca] at hmatch
        refine ⟨lca, rfl, ?_⟩
        rw [List.all_eq_true] at hmatch
        intro e he hpre
        have hcontains := hmatch e he
        have haL : a ∈ findLeaves t := matchingLeaves_subset ha
        have heL : e ∈ findLeaves t := matchingLeaves_subset he
        have hk : lca.2 = kindAtD t lca.1 :=
          ((mem_path_iff haL lca).1 (findLCA_mem hlca)).2
        have hmemE : lca ∈ e.path := (mem_path_iff heL lca).2 ⟨hpre, hk⟩
        have : ¬ lca ∈ e.path := by
          simpa [isAncestorInPath, List.contains] using hcontains
        exact this hmemE
    · rintro ⟨-, a, ha, b, hb, lca, hlca, hexcl⟩
      refine ⟨a, ha, b, hb, ?_⟩
      rw [hlca]
      rw [List.all_eq_true]
      intro e he
      have heL : e ∈ findLeaves t := matchingLeaves_subset he
      have hnot : lca ∉ e.path := fun hm =>
        hexcl e he ((mem_path_iff heL lca).1 hm).1
      simpa [isAncestorInPath, List.contains] using hnot

/-- The last entry of a leaf hit's path is the leaf node itself. -/
theorem path_getLast {t : TreeNode} {l : LeafHit} (hl : l ∈ findLeaves t) :
    l.path.getLast? = some (leafPos l, kindAtD t (leafPos l)) := by
  rw [findLeaves_path hl, List.getLast?_map, inits_getLast?, Option.map_some']

/-- The length of a leaf hit's path is one more than the depth of its leaf. -/
theorem path_length {t : TreeNode} {l : LeafHit} (hl : l ∈ findLeaves t) :
    l.path.length = (leafPos l).length + 1 := by
  rw [findLeaves_path hl, List.length_map, List.length_inits]

/-- The second-to-last entry of a leaf hit's path is the leaf's immediate
parent, which exists exactly when the leaf is not the root. -/
theorem path_parent {t : TreeNode} {l : LeafHit} (hl : l ∈ findLeaves t) :
    l.path.dropLast.getLast? =
      if leafPos l = [] then none
      else some ((leafPos l).dropLast, kindAtD t (leafPos l).dropLast) := by
  have hlen := path_length hl
  rw [List.getLast?_eq_getElem?, List.getElem?_dropLast, List.length_dropLast, hlen]
  by_cases hnil : leafPos l = []
  · rw [if_pos hnil]
    rw [hnil]
    simp
  · rw [if_neg hnil]
    have hpos : 0 < (leafPos l).length := List.length_pos.2 hnil
    rw [if_pos (by omega)]
    rw [findLeaves_path hl, List.getElem?_map]
    rw [List.getElem?_eq_getElem (by rw [List.length_inits]; omega)]
    rw [List.getElem_inits]
    rw [Option.map_some']
    rw [List.dropLast_eq_take]
    norm_num

/-- `posLeafCheck` on a leaf of the tree tests exactly the leaf node's own
label and, when the leaf is not the root, its immediate parent's label. -/
theorem posLeafCheck_iff {t : TreeNode} {l : LeafHit} (hl : l ∈ findLeaves t) (tag : String) :
    posLeafCheck tag l = true ↔
      kindAtD t (leafPos l) = tag ∨
        (leafPos l ≠ [] ∧ kindAtD t (leafPos l).dropLast = tag) := by
  unfold posLeafCheck
  rw [path_getLast hl, path_parent hl, path_length hl]
  by_cases hnil : leafPos l = []
  · rw [if_pos hnil]
    simp [hnil]
  · rw [if_neg hnil]
    have hpos : 0 < (leafPos l).length := List.length_pos.2 hnil
    simp only [Bool.or_eq_true, Bool.and_eq_true, beq_iff_eq, decide_eq_true_eq]
    constructor
    · rintro (h | ⟨-, h⟩)
      · exact Or.inl h
      · exact Or.inr ⟨hnil, h⟩
    · rintro (h | ⟨-, h⟩)
      · exact Or.inl h
      · exact Or.inr ⟨by omega, h⟩

/-- The full behaviour of `checkPartOfSpeech`: `true` iff some leaf matching
the reference carries the tag as its own node label or as its immediate
parent's label. -/
theorem checkPartOfSpeech_iff (t : TreeNode) (ref tag : String) :
    checkPartOfSpeech t ref tag = true ↔
      ∃ l ∈ matchingLeaves (findLeaves t) (parseWordRef ref),
        kindAtD t (leafPos l) = tag ∨
          (leafPos l ≠ [] ∧ kindAtD t (leafPos l).dropLast = tag) := by
  unfold checkPartOfSpeech
  rw [List.any_eq_true]
  constructor
  · rintro ⟨l, hl, hcheck⟩
    exact ⟨l, hl, (posLeafCheck_iff (matchingLeaves_subset hl) tag).1 hcheck⟩
  · rintro ⟨l, hl, h⟩
    exact ⟨l, hl, (posLeafCheck_iff (matchingLeaves_subset hl) tag).2 h⟩

/-- A leaf selected by the matching filter bears the reference's word. -/
theorem matchingLeaves_word {leaves : List LeafHit} {r : WordRef} {l : LeafHit}
    (h : l ∈ matchingLeaves leaves r) : l.word = r.word := by
  unfold matchingLeaves at h
  rw [List.mem_map] at h
  obtain ⟨⟨i, x⟩, hmem, rfl⟩ := h
  rw [List.mem_filter] at hmem
  have := hmem.2
  unfold matchesRef at this
  rw [Bool.and_eq_true] at this
  exact beq_iff_eq.1 this.1

/-- Every word reported by `findLeaves` is the lowercasing of some terminal
word of the tree. -/
theorem leavesNode_word_spec :
    ∀ (n : TreeNode) (pos : List Nat) (path : List Entry),
      ∀ l ∈ leavesNode n pos path, ∃ w ∈ treeWordsN n, l.word = jsToLower w := by
  refine leavesNode.induct
    (fun n pos path =>
      ∀ l ∈ leavesNode n pos path, ∃ w ∈ treeWordsN n, l.word = jsToLower w)
    (fun cs i pos path =>
      ∀ l ∈ leavesList cs i pos path, ∃ w ∈ treeWordsL cs, l.word = jsToLower w)
    ?_ ?_ ?_ ?_ ?_
  · intro k w pos path l hl
    simp only [leavesNode, List.mem_singleton] at hl
    subst hl
    exact ⟨w, by simp [treeWordsN], rfl⟩
  · intro k cs pos path ih l hl
    simp only [leavesNode] at hl
    obtain ⟨w, hw, hword⟩ := ih l hl
    exact ⟨w, by simpa [treeWordsN] using hw, hword⟩
  · intro k pos path l hl
    simp [leavesNode] at hl
  · intro i pos path l hl
    simp [leavesList] at hl
  · intro c cs i pos path ih1 ih2 l hl
    simp only [leavesList, List.mem_append] at hl
    rcases hl with hl | hl
    · obtain ⟨w, hw, hword⟩ := ih1 l hl
      exact ⟨w, by simp [treeWordsL, List.mem_append, hw], hword⟩
    · obtain ⟨w, hw, hword⟩ := ih2 l hl
      exact ⟨w, by simp [treeWordsL, List.mem_append, hw], hword⟩

/-- If a word reference matches some leaf of the tree, then the reference's
(lowercased) word occurs, up to case, among the tree's terminal words. -/
theorem ref_word_occurs {t : TreeNode} {r : WordRef} {l : LeafHit}
    (h : l ∈ matchingLeaves (findLeaves t) r) :
    ∃ w ∈ treeWordsN t, jsToLower w = r.word := by
  obtain ⟨w, hw, hword⟩ := leavesNode_word_spec t [] [] l (matchingLeaves_subset h)
  exact ⟨w, hw, by rw [← hword, matchingLeaves_word h]⟩

/-! ## The occurrence-index selection of the matching filter -/

theorem enumFrom_filter_snd {α : Type} (p : α → Bool) :
    ∀ (xs : List α) (j : Nat),
      ((List.enumFrom j xs).filter fun q => p q.2).map Prod.snd = xs.filter p := by
  intro xs
  induction xs with
  | nil => intro j; rfl
  | cons x xs ih =>
    intro j
    rw [List.enumFrom_cons, List.filter_cons, List.filter_cons]
    cases hp : p x with
    | true => simp [hp, ih]
    | false => simp [hp, ih]


theorem enumFilter_eq_selectOcc {α : Type} (p : α → Bool) (full : List α) :
    ∀ (xs : List α) (j c : Nat) (k : Int),
      (∀ i, j ≤ i → (full.take (i + 1)).countP p = c + ((xs.take (i + 1 - j)).countP p)) →
      ((List.enumFrom j xs).filter
          (fun q => p q.2 && (((full.take (q.1 + 1)).countP p : Int) - 1 == k))).map Prod.snd
        = selectOcc p (k - c) xs := by
  intro xs
  induction xs with
  | nil => intro j c k h; rfl
  | cons x xs ih =>
    intro j c k hfull
    rw [List.enumFrom_cons, List.filter_cons]
    rw [show ((j, x).1 : Nat) = j from rfl]
    have hcount : (full.take (j + 1)).countP p = c + (if p x then 1 else 0) := by
      have h := hfull j (le_refl j)
      simpa [List.countP_cons] using h
    have htail :
        ∀ i, j + 1 ≤ i →
          (full.take (i + 1)).countP p
            = (c + (if p x then 1 else 0)) + ((xs.take (i + 1 - (j + 1))).countP p) := by
      intro i hi
      have h := hfull i (by omega)
      have hx : (x :: xs).take (i + 1 - j) = x :: xs.take (i - j) := by
        rw [show i + 1 - j = (i - j) + 1 from by omega]
        rfl
      rw [hx] at h
      rw [show i + 1 - (j + 1) = i - j from by omega]
      rw [h, List.countP_cons]
      cases hp : p x <;> simp [hp]
      omega
    have hk : k - ((c + 1 : Nat) : Int) = k - (c : Nat) - 1 := by push_cast; ring
    cases hp : p x with
    | false =>
      rw [if_neg (by simp)]
      rw [ih (j + 1) c k (by simpa [hp] using htail)]
      simp [selectOcc, hp]
    | true =>
      simp only [Bool.true_and]
      have hcond : ((((full.take (j + 1)).countP p : Int) - 1 == k))
          = ((k - c) == 0) := by
        rw [Bool.eq_iff_iff]
        simp only [beq_iff_eq, hcount, hp, if_true]
        push_cast
        omega
      rw [hcond]
      cases hz : ((k - (c : Nat)) == 0) with
      | true =>
        rw [if_pos rfl, List.map_cons]
        rw [ih (j + 1) (c + 1) k (by simpa [hp] using htail), hk]
        simp [selectOcc, hp, hz]
      | false =>
        rw [if_neg (by simp)]
        rw [ih (j + 1) (c + 1) k (by simpa [hp] using htail), hk]
        simp [selectOcc, hp, hz]

theorem selectOcc_spec {α : Type} (p : α → Bool) :
    ∀ (xs : List α) (k : Int),
      selectOcc p k xs = if k < 0 then [] else ((xs.filter p).drop k.toNat).take 1 := by
  intro xs
  induction xs with
  | nil => intro k; simp [selectOcc]
  | cons x xs ih =>
    intro k
    cases hp : p x with
    | false =>
      have hsel : selectOcc p k (x :: xs) = selectOcc p k xs := by
        simp [selectOcc, hp]
      have hfil : List.filter p (x :: xs) = List.filter p xs := by
        simp [List.filter_cons, hp]
      rw [hsel, hfil, ih k]
    | true =>
      have hfil : List.filter p (x :: xs) = x :: List.filter p xs := by
        simp [List.filter_cons, hp]
      by_cases hk0 : k = 0
      · subst hk0
        have hsel : selectOcc p 0 (x :: xs) = [x] ++ selectOcc p (-1) xs := by
          simp [selectOcc, hp]
        rw [hsel, ih (-1), hfil]
        simp
      · have hsel : selectOcc p k (x :: xs) = selectOcc p (k - 1) xs := by
          simp [selectOcc, hp, hk0]
        rw [hsel, ih (k - 1), hfil]
        by_cases hneg : k < 0
        · rw [if_pos (by omega), if_pos hneg]
        · rw [if_neg (by omega), if_neg hneg]
          rw [show k.toNat = (k - 1).toNat + 1 from by omega]
          rfl

/-- The matching filter with a numeric index `k` selects exactly the `k`-th
(0-based) element of the matching occurrences, or nothing when `k` is out of
range or negative. -/
theorem matchingLeaves_num (leaves : List LeafHit) (w : String) (k : Int) :
    matchingLeaves leaves ⟨w, .num k⟩
      = if k < 0 then [] else ((leaves.filter fun l => l.word == w).drop k.toNat).take 1 := by
  unfold matchingLeaves
  have h := enumFilter_eq_selectOcc (fun l : LeafHit => l.word == w) leaves leaves 0 0 k
    (by intro i hi; simp)
  rw [show (k : Int) - (0 : Nat) = k from by push_cast; ring] at h
  rw [← selectOcc_spec, ← h]
  rfl

/-- The matching filter with no index selects every occurrence of the word. -/
theorem matchingLeaves_undef (leaves : List LeafHit) (w : String) :
    matchingLeaves leaves ⟨w, .undef⟩ = leaves.filter fun l => l.word == w := by
  unfold matchingLeaves
  rw [← enumFrom_filter_snd (fun l : LeafHit => l.word == w) leaves 0]
  congr 1
  refine List.filter_congr ?_
  intro q hq
  simp [matchesRef]

/-! ## Behaviour of the display pruning -/

theorem pruneTree_spec :
    ∀ t : TreeNode,
      (pruneTree t false = none ↔ treeWordsN t = []) ∧
      (∀ t', pruneTree t false = some t' →
        treeWordsN t' = treeWordsN t ∧ everySubtreeHasWordN t' = true) := by
  have main :
      ∀ (t : TreeNode) (b : Bool), b = false →
        (pruneTree t false = none ↔ treeWordsN t = []) ∧
        (∀ t', pruneTree t false = some t' →
          treeWordsN t' = treeWordsN t ∧ everySubtreeHasWordN t' = true) := by
    refine pruneTree.induct
      (fun t b =>
        b = false →
          (pruneTree t false = none ↔ treeWordsN t = []) ∧
          (∀ t', pruneTree t false = some t' →
            treeWordsN t' = treeWordsN t ∧ everySubtreeHasWordN t' = true))
      (fun cs b =>
        b = false →
          treeWordsL (pruneList cs false) = treeWordsL cs ∧
          (pruneList cs false = [] ↔ treeWordsL cs = []) ∧
          everySubtreeHasWordL (pruneList cs false) = true)
      ?_ ?_ ?_ ?_ ?_ ?_ ?_ ?_ ?_
    · intro k w _ _
      refine ⟨by simp [pruneTree, treeWordsN], ?_⟩
      intro t' ht'
      simp only [pruneTree, Option.some_inj] at ht'
      subst ht'
      simp [treeWordsN, everySubtreeHasWordN]
    · intro k h
      cases h
    · intro k sn _ hb
      refine ⟨by simp [pruneTree, treeWordsN], ?_⟩
      intro t' ht'
      simp [pruneTree] at ht'
    · intro k cs _ _ h
      cases h
    · intro k cs sn hfcs hsn ih hb
      subst hb
      obtain ⟨hwords, hiff, hall⟩ := ih rfl
      refine ⟨?_, ?_⟩
      · simp only [pruneTree, hfcs, treeWordsN]
        simp [hiff.1 hfcs]
      · intro t' ht'
        rw [pruneTree, hfcs] at ht'
        simp at ht'
    · intro k cs sn c cs' hfcs ih hb
      subst hb
      obtain ⟨hwords, hiff, hall⟩ := ih rfl
      have hwne : treeWordsL cs ≠ [] := by
        intro h
        rw [hiff.2 h] at hfcs
        cases hfcs
      refine ⟨?_, ?_⟩
      · simp only [pruneTree, hfcs, treeWordsN]
        constructor
        · intro h; cases h
        · intro h; exact absurd h hwne
      · intro t' ht'
        rw [pruneTree, hfcs] at ht'
        simp only [Option.some_inj] at ht'
        subst ht'
        rw [hfcs] at hwords hall
        refine ⟨by simpa [treeWordsN] using hwords, ?_⟩
        simp [everySubtreeHasWordN, hall]
    · intro b hb
      simp [pruneList, treeWordsL, everySubtreeHasWordL]
    · intro c cs sn hc ih1 ih2 hb
      subst hb
      obtain ⟨hiffc, hsomec⟩ := ih1 rfl
      obtain ⟨hwords, hiff, hall⟩ := ih2 rfl
      have hcw : treeWordsN c = [] := hiffc.1 hc
      simp only [pruneList, hc]
      refine ⟨?_, ?_, hall⟩
      · rw [hwords]; simp [treeWordsL, hcw]
      · rw [hiff]; simp [treeWordsL, hcw]
    · intro c cs sn c' hc ih1 ih2 hb
      subst hb
      obtain ⟨hiffc, hsomec⟩ := ih1 rfl
      obtain ⟨hwords, hiff, hall⟩ := ih2 rfl
      obtain ⟨hcw, hce⟩ := hsomec c' hc
      have hcne : treeWordsN c ≠ [] := by
        intro h
        rw [← hiffc] at h
        rw [hc] at h
        cases h
      simp only [pruneList, hc]
      refine ⟨?_, ?_, ?_⟩
      · simp [treeWordsL, hcw, hwords]
      · constructor
        · intro h; cases h
        · intro h
          simp only [treeWordsL, List.append_eq_nil] at h
          exact absurd h.1 hcne
      · simp [everySubtreeHasWordL, hce, hall]
  exact fun t => main t false rfl

/-! ## Case invariance of the query layer -/

theorem toNat_ofNat_valid {n : Nat} (h : n.isValidChar) : (Char.ofNat n).toNat = n := by
  simp [Char.ofNat, h, Char.ofNatAux, Char.toNat, UInt32.toNat]

theorem char_toNat_inj {c d : Char} (h : c.toNat = d.toNat) : c = d :=
  Char.ext (UInt32.ext h)

theorem char_le_iff {c d : Char} : c ≤ d ↔ c.toNat ≤ d.toNat := by
  rw [Char.le_def]
  exact ⟨fun h => h, fun h => h⟩

/-- Case analysis behind ASCII lowercasing: two characters with the same
lowercase form are equal, or one is the uppercase of the other. -/
theorem toLower_cases {c d : Char} (h : c.toLower = d.toLower) :
    c = d ∨
    (65 ≤ c.toNat ∧ c.toNat ≤ 90 ∧ d.toNat = c.toNat + 32) ∨
    (65 ≤ d.toNat ∧ d.toNat ≤ 90 ∧ c.toNat = d.toNat + 32) := by
  have hval : ∀ m : Nat, m ≤ 122 → Nat.isValidChar m := fun m hm => Or.inl (by omega)
  have key : ∀ e : Char,
      (Char.toLower e).toNat
        = if e.toNat ≥ 65 ∧ e.toNat ≤ 90 then e.toNat + 32 else e.toNat := by
    intro e
    unfold Char.toLower
    by_cases he : e.toNat ≥ 65 ∧ e.toNat ≤ 90
    · rw [if_pos he, if_pos he]
      exact toNat_ofNat_valid (hval _ (by omega))
    · rw [if_neg he, if_neg he]
  have h' : (Char.toLower c).toNat = (Char.toLower d).toNat := by rw [h]
  rw [key c, key d] at h'
  by_cases hc : c.toNat ≥ 65 ∧ c.toNat ≤ 90 <;>
    by_cases hd : d.toNat ≥ 65 ∧ d.toNat ≤ 90
  · rw [if_pos hc, if_pos hd] at h'
    exact Or.inl (char_toNat_inj (by omega))
  · rw [if_pos hc, if_neg hd] at h'
    exact Or.inr (Or.inl ⟨hc.1, hc.2, by omega⟩)
  · rw [if_neg hc, if_pos hd] at h'
    exact Or.inr (Or.inr ⟨hd.1, hd.2, by omega⟩)
  · rw [if_neg hc, if_neg hd] at h'
    exact Or.inl (char_toNat_inj h')

/-- Two characters with the same lowercase form agree on equality with any
non-letter character. -/
theorem caseEq_eq_iff {c d x : Char} (h : c.toLower = d.toLower)
    (hx1 : x.toNat < 65 ∨ 90 < x.toNat) (hx2 : x.toNat < 97 ∨ 122 < x.toNat) :
    c = x ↔ d = x := by
  have hcx : c = x ↔ c.toNat = x.toNat := ⟨fun e => e ▸ rfl, char_toNat_inj⟩
  have hdx : d = x ↔ d.toNat = x.toNat := ⟨fun e => e ▸ rfl, char_toNat_inj⟩
  rw [hcx, hdx]
  rcases toLower_cases h with rfl | ⟨h1, h2, h3⟩ | ⟨h1, h2, h3⟩
  · exact Iff.rfl
  · omega
  · omega

/-- Two characters with the same lowercase form have the same digit value. -/
theorem caseEq_digitVal {c d : Char} (h : c.toLower = d.toLower) :
    digitVal c = digitVal d := by
  have h0 : Char.toNat '0' = 48 := rfl
  have h9 : Char.toNat '9' = 57 := rfl
  unfold digitVal
  rcases toLower_cases h with rfl | ⟨h1, h2, h3⟩ | ⟨h1, h2, h3⟩
  · rfl
  · rw [if_neg, if_neg]
    · rintro ⟨ha, hb⟩
      rw [char_le_iff] at ha hb
      omega
    · rintro ⟨ha, hb⟩
      rw [char_le_iff] at ha hb
      omega
  · rw [if_neg, if_neg]
    · rintro ⟨ha, hb⟩
      rw [char_le_iff] at ha hb
      omega
    · rintro ⟨ha, hb⟩
      rw [char_le_iff] at ha hb
      omega

/-- Two characters with the same lowercase form are both whitespace or both
not. -/
theorem caseEq_isJsSpace {c d : Char} (h : c.toLower = d.toLower) :
    isJsSpace c = isJsSpace d := by
  rw [Bool.eq_iff_iff]
  simp only [isJsSpace, Bool.or_eq_true, decide_eq_true_eq]
  rw [caseEq_eq_iff h (by left; decide) (by left; decide),
    caseEq_eq_iff h (x := '\t') (by left; decide) (by left; decide),
    caseEq_eq_iff h (x := '\n') (by left; decide) (by left; decide),
    caseEq_eq_iff h (x := '\r') (by left; decide) (by left; decide)]


theorem dropWhile_caseEq :
    ∀ {cs ds : List Char}, List.Forall₂ chEq cs ds →
      List.Forall₂ chEq (cs.dropWhile isJsSpace) (ds.dropWhile isJsSpace) := by
  intro cs ds h
  induction h with
  | nil => exact List.Forall₂.nil
  | cons hcd htail ih =>
    rename_i a b as bs
    rw [List.dropWhile_cons, List.dropWhile_cons]
    rw [caseEq_isJsSpace hcd]
    cases hb : isJsSpace b with
    | true => simpa [hb] using ih
    | false => simpa [hb] using List.Forall₂.cons hcd htail

theorem takeDigits_caseEq :
    ∀ {cs ds : List Char}, List.Forall₂ chEq cs ds →
      ∀ acc, takeDigits cs acc = takeDigits ds acc := by
  intro cs ds h
  induction h with
  | nil => intro acc; rfl
  | cons hcd htail ih =>
    rename_i a b as bs
    intro acc
    simp only [takeDigits, caseEq_digitVal hcd]
    cases digitVal b with
    | none => rfl
    | some v => exact ih _

theorem forall₂_map_eq {α β : Type} {f : α → β} :
    ∀ {l l' : List α}, List.Forall₂ (fun a b => f a = f b) l l' → l.map f = l'.map f := by
  intro l l' h
  induction h with
  | nil => rfl
  | cons hab htail ih => simp [ih, hab]

theorem map_eq_forall₂ {α β : Type} {f : α → β} :
    ∀ {l l' : List α}, l.map f = l'.map f → List.Forall₂ (fun a b => f a = f b) l l' := by
  intro l
  induction l with
  | nil =>
    intro l' h
    cases l' with
    | nil => exact List.Forall₂.nil
    | cons b bs => simp at h
  | cons a as ih =>
    intro l' h
    cases l' with
    | nil => simp at h
    | cons b bs =>
      simp only [List.map_cons, List.cons.injEq] at h
      exact List.Forall₂.cons h.1 (ih h.2)

theorem parseIntJS_caseEq {s t : String} (h : strCaseEq s t) :
    parseIntJS s = parseIntJS t := by
  have hf : List.Forall₂ chEq s.data t.data := map_eq_forall₂ h
  have hdrop := dropWhile_caseEq hf
  unfold parseIntJS
  generalize hA : s.data.dropWhile isJsSpace = cs' at hdrop ⊢
  generalize hB : t.data.dropWhile isJsSpace = ds' at hdrop ⊢
  cases hdrop with
  | nil => rfl
  | cons hcd htail =>
    rename_i a b as bs
    dsimp only
    have hminus := caseEq_eq_iff hcd (x := '-') (by left; decide) (by left; decide)
    have hplus := caseEq_eq_iff hcd (x := '+') (by left; decide) (by left; decide)
    by_cases ha : a = '-'
    · rw [if_pos ha, if_pos (hminus.1 ha)]
      rw [takeDigits_caseEq htail]
    · rw [if_neg ha, if_neg (fun hb => ha (hminus.2 hb))]
      by_cases ha' : a = '+'
      · rw [if_pos ha', if_pos (hplus.1 ha')]
        rw [takeDigits_caseEq htail]
      · rw [if_neg ha', if_neg (fun hb => ha' (hplus.2 hb))]
        rw [takeDigits_caseEq (List.Forall₂.cons hcd htail)]

theorem splitChar_caseEq :
    ∀ {cs ds : List Char}, List.Forall₂ chEq cs ds →
      ∀ {acc acc' : List Char}, List.Forall₂ chEq acc acc' →
        List.Forall₂ (List.Forall₂ chEq) (splitChar ':' cs acc) (splitChar ':' ds acc') := by
  intro cs ds h
  induction h with
  | nil =>
    intro acc acc' ha
    exact List.Forall₂.cons (List.forall₂_reverse_iff.2 ha) List.Forall₂.nil
  | cons hcd htail ih =>
    rename_i a b as bs
    intro acc acc' ha
    have hcolon := caseEq_eq_iff hcd (x := ':') (by left; decide) (by left; decide)
    simp only [splitChar]
    by_cases hc : a = ':'
    · rw [if_pos hc, if_pos (hcolon.1 hc)]
      exact List.Forall₂.cons (List.forall₂_reverse_iff.2 ha) (ih List.Forall₂.nil)
    · rw [if_neg hc, if_neg (fun hb => hc (hcolon.2 hb))]
      exact ih (List.Forall₂.cons hcd ha)

/-- Strings with the same lowercase form parse to the same word reference:
the split on `:`, the lowercasing of the word part and the integer parse of
the index part are all invariant under letter-case changes. -/
theorem parseWordRef_caseEq {r r' : String} (h : strCaseEq r r') :
    parseWordRef r = parseWordRef r' := by
  have hparts := splitChar_caseEq (map_eq_forall₂ h) List.Forall₂.nil
  unfold parseWordRef jsSplit
  generalize hA : splitChar ':' r.data [] = ps at hparts ⊢
  generalize hB : splitChar ':' r'.data [] = qs at hparts ⊢
  have hword : jsToLower r = jsToLower r' := congrArg String.mk h
  have hlen : ps.length = qs.length := hparts.length_eq
  cases hparts with
  | nil => simp [hword]
  | cons h1 htail =>
    rename_i p0 q0 ps' qs'
    cases htail with
    | nil =>
      simp only [List.map_cons, List.map_nil, List.length_cons, List.length_nil]
      rw [if_neg (by omega), if_neg (by omega)]
      simp [hword]
    | cons h2 htail2 =>
      rename_i p1 q1 ps'' qs''
      cases htail2 with
      | nil =>
        simp only [List.map_cons, List.map_nil]
        rw [if_pos (by simp), if_pos (by simp)]
        have hw0 : jsToLower ⟨p0⟩ = jsToLower ⟨q0⟩ :=
          congrArg String.mk (forall₂_map_eq h1)
        have hw1 : parseIntJS ⟨p1⟩ = parseIntJS ⟨q1⟩ :=
          parseIntJS_caseEq (forall₂_map_eq h2)
        simp only [List.getD, List.get?_cons_zero, List.get?_cons_succ,
          Option.getD_some]
        rw [hw0, hw1]
      | cons h3 htail3 =>
        simp only [List.map_cons, List.length_cons]
        rw [if_neg (by simp), if_neg (by simp)]
        simp [hword]

/-- Structural induction over `TreeNode` with a member-wise hypothesis for
the child list. -/
theorem TreeNode.inductionOn (P : TreeNode → Prop)
    (hleaf : ∀ k w, P (.leaf k w))
    (hnode : ∀ k cs, (∀ c ∈ cs, P c) → P (.node k cs))
    (hnull : ∀ k, P (.nullNode k)) : ∀ t, P t := by
  have key : ∀ (n : Nat) (t : TreeNode), sizeOf t ≤ n → P t := by
    intro n
    induction n with
    | zero =>
      intro t h
      cases t <;> simp at h
    | succ n ih =>
      intro t h
      cases t with
      | leaf k w => exact hleaf k w
      | nullNode k => exact hnull k
      | node k cs =>
        refine hnode k cs fun c hc => ih c ?_
        have hlt := List.sizeOf_lt_of_mem hc
        have hsz := TreeNode.node.sizeOf_spec k cs
        omega
  exact fun t => key (sizeOf t) t (le_refl _)

theorem caseVariantL_leavesList :
    ∀ (cs cs' : List TreeNode),
      (∀ c ∈ cs, ∀ c'', caseVariantN c c'' = true →
        ∀ pos path, leavesNode c pos path = leavesNode c'' pos path) →
      caseVariantL cs cs' = true →
      ∀ i pos path, leavesList cs i pos path = leavesList cs' i pos path := by
  intro cs
  induction cs with
  | nil =>
    intro cs' _ hcv
    cases cs' with
    | nil => intro i pos path; rfl
    | cons c' cs'' => simp [caseVariantL] at hcv
  | cons c cs ih =>
    intro cs' hm hcv
    cases cs' with
    | nil => simp [caseVariantL] at hcv
    | cons c' cs'' =>
      simp only [caseVariantL, Bool.and_eq_true] at hcv
      intro i pos path
      simp only [leavesList]
      rw [hm c (List.mem_cons_self c cs) c' hcv.1,
        ih cs'' (fun x hx => hm x (List.mem_cons_of_mem c hx)) hcv.2]

/-- Case-variant trees produce identical `findLeaves` output: the words are
lowercased by the traversal and the kinds and shape are equal. -/
theorem caseVariant_leavesNode :
    ∀ (t t' : TreeNode), caseVariantN t t' = true →
      ∀ pos path, leavesNode t pos path = leavesNode t' pos path := by
  refine TreeNode.inductionOn
    (fun t => ∀ t', caseVariantN t t' = true →
      ∀ pos path, leavesNode t pos path = leavesNode t' pos path) ?_ ?_ ?_
  · intro k w t' hcv pos path
    cases t' with
    | leaf k' w' =>
      simp only [caseVariantN, Bool.and_eq_true, beq_iff_eq] at hcv
      simp [leavesNode, hcv.1, hcv.2]
    | node k' cs' => simp [caseVariantN] at hcv
    | nullNode k' => simp [caseVariantN] at hcv
  · intro k cs hm t' hcv pos path
    cases t' with
    | leaf k' w' => simp [caseVariantN] at hcv
    | node k' cs' =>
      simp only [caseVariantN, Bool.and_eq_true, beq_iff_eq] at hcv
      simp only [leavesNode, hcv.1]
      exact caseVariantL_leavesList cs cs' hm hcv.2 0 pos (path ++ [(pos, k')])
    | nullNode k' => simp [caseVariantN] at hcv
  · intro k t' hcv pos path
    cases t' with
    | leaf k' w' => simp [caseVariantN] at hcv
    | node k' cs' => simp [caseVariantN] at hcv
    | nullNode k' => simp [leavesNode]

/-- Case-variant trees have identical `findLeaves` output. -/
theorem caseVariant_findLeaves {t t' : TreeNode} (h : caseVariantN t t' = true) :
    findLeaves t = findLeaves t' :=
  caseVariant_leavesNode t t' h [] []


/-! ## The claims -/

/-- C1: `checkConstituency(tree, w1, w2, excl)` returns `true` iff there is a
pair of leaves matching `w1` and `w2` whose lowest common ancestor has no
matching occurrence of `excl` among its leaf descendants (leaves whose
position it prefixes); the characterisation's right-hand side is false
whenever any of the three references has no matching leaf, so the function
returns `false` then. -/
theorem claim_C1 (t : TreeNode) (word1Ref word2Ref excludesRef : String) :
    checkConstituency t word1Ref word2Ref excludesRef = true ↔
      (matchingLeaves (findLeaves t) (parseWordRef excludesRef) ≠ [] ∧
       ∃ l1 ∈ matchingLeaves (findLeaves t) (parseWordRef word1Ref),
       ∃ l2 ∈ matchingLeaves (findLeaves t) (parseWordRef word2Ref),
       ∃ lca, findLCA l1.path l2.path = some lca ∧
         ∀ e ∈ matchingLeaves (findLeaves t) (parseWordRef excludesRef),
           ¬ lca.1 <+: leafPos e) :=
  checkConstituency_iff t word1Ref word2Ref excludesRef

/-- C2 as stated fails on the code: an exception with an empty message is
caught into `error = ""`, `recordAssertion`'s `if (error)` truthiness guard
then skips `task.meta.error`, and every observable of `toBeGrammatical` —
`pass`, message, actual count and all recorded meta fields — coincides with
the zero-parse outcome for the same sentence. -/
theorem claim_C2_counterexample :
    toBeGrammatical (parseMatchers (fun _ => .error "") "s" [])
      = toBeGrammatical (parseMatchers (fun _ => .ok []) "s" []) := by
  decide

/-- C2 (amended): the test harness distinguishes "zero parses" from "error"
whenever the exception carries a non-empty (JS-truthy) message: for the same
sentence, the observable outcome of `toBeGrammatical` (its matcher return
value together with the recorded `task.meta` fields) differs between an
underlying parse that throws with a non-empty message and one that returns
zero derivations — the recorded `meta.error` is set in the first case and
absent in the second. -/
theorem claim_C2 (runParse1 runParse2 : String → Except String (List TreeNode))
    (s msg : String) (filters : List Filter)
    (h1 : runParse1 s = .error msg) (h2 : runParse2 s = .ok [])
    (hmsg : msg ≠ "") :
    toBeGrammatical (parseMatchers runParse1 s filters)
      ≠ toBeGrammatical (parseMatchers runParse2 s filters) ∧
    (toBeGrammatical (parseMatchers runParse1 s filters)).metaError = some msg ∧
    (toBeGrammatical (parseMatchers runParse2 s filters)).metaError = none := by
  unfold parseMatchers
  rw [h1, h2]
  have herr :
      (toBeGrammatical { sentence := s, trees := [], error := some msg }).metaError
        = some msg := by
    simp [toBeGrammatical, hmsg]
  refine ⟨?_, herr, rfl⟩
  intro he
  have hmeta := congrArg GrammaticalOutcome.metaError he
  rw [herr] at hmeta
  simp [toBeGrammatical] at hmeta

theorem claim_C2_witness :
    toBeGrammatical (parseMatchers (fun _ => .error "lexing failed") "s" [])
      ≠ toBeGrammatical (parseMatchers (fun _ => .ok []) "s" []) :=
  (claim_C2 (fun _ => .error "lexing failed") (fun _ => .ok []) "s" "lexing failed" []
    rfl rfl (by decide)).1

/-- C3: if `checkConstituency` returns `true`, then each of the three word
references occurs, up to letter case, as a terminal word among the tree's
leaves (and hence literally in the parsed sentence the leaves spell out). -/
theorem claim_C3 (t : TreeNode) (r1 r2 re : String)
    (h : checkConstituency t r1 r2 re = true) :
    (∃ w ∈ treeWordsN t, jsToLower w = (parseWordRef r1).word) ∧
    (∃ w ∈ treeWordsN t, jsToLower w = (parseWordRef r2).word) ∧
    (∃ w ∈ treeWordsN t, jsToLower w = (parseWordRef re).word) := by
  obtain ⟨hne, l1, h1, l2, h2, -⟩ := (checkConstituency_iff t r1 r2 re).1 h
  obtain ⟨e, he⟩ := List.exists_mem_of_ne_nil _ hne
  exact ⟨ref_word_occurs h1, ref_word_occurs h2, ref_word_occurs he⟩

theorem claim_C3_witness :
    (∃ w ∈ treeWordsN exTree, jsToLower w = (parseWordRef "the").word) ∧
    (∃ w ∈ treeWordsN exTree, jsToLower w = (parseWordRef "dog").word) ∧
    (∃ w ∈ treeWordsN exTree, jsToLower w = (parseWordRef "ran").word) :=
  claim_C3 exTree "the" "dog" "ran" (by decide)

/-- C4: `checkPartOfSpeech(tree, ref, tag)` returns `true` iff some leaf
matching the reference itself carries the tag as its node label, or has an
immediate parent node whose `kind` equals the tag. -/
theorem claim_C4 (t : TreeNode) (wordRef expectedTag : String) :
    checkPartOfSpeech t wordRef expectedTag = true ↔
      ∃ l ∈ matchingLeaves (findLeaves t) (parseWordRef wordRef),
        kindAtD t (leafPos l) = expectedTag ∨
          (leafPos l ≠ [] ∧ kindAtD t (leafPos l).dropLast = expectedTag) :=
  checkPartOfSpeech_iff t wordRef expectedTag

/-- C5: the matchers `toHaveConstituent` and `toHavePOS` pass exactly when
some tree of the parse result satisfies the corresponding predicate — the
logical OR over all trees — and in particular never pass on a result with
zero trees. -/
theorem claim_C5 (res : ParseResult) (w1 w2 ex word tag s : String) (err : Option String) :
    (toHaveConstituentPass res w1 w2 ex = true ↔
      ∃ t ∈ res.trees, checkConstituency t w1 w2 ex = true) ∧
    (toHavePOSPass res word tag = true ↔
      ∃ t ∈ res.trees, checkPartOfSpeech t word tag = true) ∧
    toHaveConstituentPass ⟨s, [], err⟩ w1 w2 ex = false ∧
    toHavePOSPass ⟨s, [], err⟩ word tag = false := by
  refine ⟨?_, ?_, rfl, rfl⟩
  · unfold toHaveConstituentPass
    by_cases h : res.trees.isEmpty
    · rw [if_pos h]
      rw [List.isEmpty_iff] at h
      simp [h]
    · rw [if_neg h]
      exact List.any_eq_true
  · unfold toHavePOSPass
    by_cases h : res.trees.isEmpty
    · rw [if_pos h]
      rw [List.isEmpty_iff] at h
      simp [h]
    · rw [if_neg h]
      exact List.any_eq_true

/-- C6: for a reference of the form `word:k`, the leaf matching used by
`checkConstituency` and `checkPartOfSpeech` selects exactly the `k`-th
occurrence (0-based, left to right) of the word among the tree's leaves;
a reference without an index matches every occurrence. -/
theorem claim_C6 (t : TreeNode) (ref w : String) (k : Nat) :
    (parseWordRef ref = ⟨w, .num k⟩ →
      matchingLeaves (findLeaves t) (parseWordRef ref)
        = (((findLeaves t).filter fun l => l.word == w).drop k).take 1) ∧
    (parseWordRef ref = ⟨w, .undef⟩ →
      matchingLeaves (findLeaves t) (parseWordRef ref)
        = (findLeaves t).filter fun l => l.word == w) := by
  constructor
  · intro h
    rw [h, matchingLeaves_num, if_neg (by omega)]
    simp
  · intro h
    rw [h, matchingLeaves_undef]

theorem claim_C6_witness :
    matchingLeaves (findLeaves exTree) (parseWordRef "dog:0")
      = (((findLeaves exTree).filter fun l => l.word == "dog").drop 0).take 1 ∧
    matchingLeaves (findLeaves exTree) (parseWordRef "dog")
      = (findLeaves exTree).filter fun l => l.word == "dog" :=
  ⟨(claim_C6 exTree "dog:0" "dog" 0).1 (by decide),
   (claim_C6 exTree "dog" "dog" 0).2 (by decide)⟩

/-- C7: display pruning with "show empty nodes" off removes exactly the
word-free nodes: it returns `null` iff the tree has no terminal word, and
otherwise returns a tree with the same terminal words in the same order in
which every remaining node has a terminal-word descendant.  (The embedding
is a pure function, matching the claim that the input tree is not
modified: the JS code builds fresh nodes and never assigns to the input.) -/
theorem claim_C7 (t : TreeNode) :
    (pruneTree t false = none ↔ treeWordsN t = []) ∧
    (∀ t', pruneTree t false = some t' →
      treeWordsN t' = treeWordsN t ∧ everySubtreeHasWordN t' = true) :=
  pruneTree_spec t

theorem claim_C7_witness :
    treeWordsN (TreeNode.node "Clause" [.leaf "V" "ran"]) = treeWordsN exTreeNull ∧
    everySubtreeHasWordN (TreeNode.node "Clause" [.leaf "V" "ran"]) = true :=
  (claim_C7 exTreeNull).2 (TreeNode.node "Clause" [.leaf "V" "ran"]) (by rfl)

/-- C8: the parse pipeline is deterministic as a function of the input text
and the fixed grammar/lexicon artifacts: a second call to `parse` on the
same sentence — whatever parser instances the first call left in the process
heap — returns the same list of trees, hence a set of equal size and equal
tree shapes. -/
theorem claim_C8 (e : ParseEngine) (w : ProcState) (s : String) :
    (parseCall e w s).1 = (parseCall e (parseCall e w s).2 s).1 ∧
    (parseCall e w s).1.length = (parseCall e (parseCall e w s).2 s).1.length :=
  ⟨rfl, rfl⟩

/-- C9: word matching in the tree query layer is case-insensitive: changing
any leaf word or any reference word only in letter case changes neither
`checkConstituency` nor `checkPartOfSpeech`, because leaf words and
reference words are both lowercased before comparison. -/
theorem claim_C9 (t t' : TreeNode) (r1 r1' r2 r2' re re' tag : String)
    (ht : caseVariantN t t' = true)
    (h1 : strCaseEq r1 r1') (h2 : strCaseEq r2 r2') (h3 : strCaseEq re re') :
    checkConstituency t r1 r2 re = checkConstituency t' r1' r2' re' ∧
    checkPartOfSpeech t r1 tag = checkPartOfSpeech t' r1' tag := by
  have hF := caseVariant_findLeaves ht
  have hp1 := parseWordRef_caseEq h1
  have hp2 := parseWordRef_caseEq h2
  have hp3 := parseWordRef_caseEq h3
  constructor
  · simp only [checkConstituency]
    rw [hF, hp1, hp2, hp3]
  · simp only [checkPartOfSpeech]
    rw [hF, hp1]

theorem claim_C9_witness :
    (checkConstituency exTree "the" "dog" "ran"
        = checkConstituency exTreeCase "THE" "Dog" "rAn") ∧
    (checkPartOfSpeech exTree "the" "D" = checkPartOfSpeech exTreeCase "THE" "D") :=
  claim_C9 exTree exTreeCase "the" "THE" "dog" "Dog" "ran" "rAn" "D"
    (by decide) (by decide) (by decide) (by decide)

/-- C10: for any two leaf paths produced by `findLeaves` on the same tree,
`findLCA` returns a non-null entry (both paths begin at the shared root), so
the `if (!lca) continue` branch inside `checkConstituency` is unreachable for
leaves of a single tree. -/
theorem claim_C10 (t : TreeNode) (l1 l2 : LeafHit)
    (h1 : l1 ∈ findLeaves t) (h2 : l2 ∈ findLeaves t) :
    ∃ lca, findLCA l1.path l2.path = some lca :=
  findLCA_of_leaves h1 h2

theorem claim_C10_witness :
    ∃ lca,
      findLCA [([], "Clause"), ([0], "NP"), ([0, 0], "D")]
        [([], "Clause"), ([1], "V")] = some lca :=
  claim_C10 exTree ⟨"the", [([], "Clause"), ([0], "NP"), ([0, 0], "D")]⟩
    ⟨"ran", [([], "Clause"), ([1], "V")]⟩ (by decide) (by decide)
end CGEL
